import Mathlib

/-!
Verification of the shared support library of an Advent-of-Code repository:
the dense 2D `Grid` container with its row-by-row `GridBuilder`
(`src/aoc/src/grid.rs`) and the generic shortest-path engine
(`src/aoc/src/dijkstra.rs`).

The Rust code is shallowly embedded: `usize` becomes `Nat`, `isize` becomes
`Int`, `Box<[T]>`/`Vec<T>` become `List T`, and every operation that can
panic returns an `Option` whose `none` models the panic.  `HashMap`/`HashSet`
become association lists / lists with explicit no-duplicate invariants; the
unspecified iteration order of `HashMap` (used by `min_by` to pick the
closest frontier node) is refined to one concrete order.
-/

namespace Aoc

/-! ## Grid (src/aoc/src/grid.rs) -/

/-- `Grid<T>`: `width`, `height` and the backing buffer `s : Box<[T]>`,
row-major with index `x + y * width`. -/
structure Grid (T : Type) where
  width : Nat
  height : Nat
  s : List T
deriving DecidableEq

namespace Grid

/-- The buffer invariant every constructor establishes:
`s.len() == width * height`. -/
def WF {T : Type} (g : Grid T) : Prop := g.s.length = g.width * g.height

instance {T : Type} [DecidableEq T] (g : Grid T) : Decidable g.WF := by
  unfold WF; infer_instance

/-- `Grid::new(width, height, t0)`: buffer `vec![t0; width * height]`. -/
def new {T : Type} (width height : Nat) (t0 : T) : Grid T :=
  ⟨width, height, List.replicate (width * height) t0⟩

/-- `Grid::checked_get(x, y)`: `None` when a coordinate is negative or past a
dimension, otherwise the element at `x + y * width`.  The inner slice access
is modelled with `getElem?`; under `WF` it is always in range. -/
def checked_get {T : Type} (g : Grid T) (x y : Int) : Option T :=
  if x < 0 ∨ y < 0 ∨ g.width ≤ x.toNat ∨ g.height ≤ y.toNat then none
  else g.s[x.toNat + y.toNat * g.width]?

/-- `Grid::get(x, y)`: panics (here `none`) when a coordinate is out of
bounds, otherwise reads the element at `x + y * width`. -/
def get {T : Type} (g : Grid T) (x y : Nat) : Option T :=
  if g.width ≤ x ∨ g.height ≤ y then none
  else g.s[x + y * g.width]?

/-- `Grid::get_row_slice(y)`: panics (`none`) when `y >= height`; otherwise
returns the slice `&s[y*width .. y*width + height]`, which also panics when
the end of the range exceeds the buffer length.  (The `+ height` is exactly
what the source writes.) -/
def get_row_slice {T : Type} (g : Grid T) (y : Nat) : Option (List T) :=
  if g.height ≤ y then none
  else if y * g.width + g.height ≤ g.s.length then
    some ((g.s.drop (y * g.width)).take g.height)
  else none

/-- `Grid::set(x, y, t)`: panics (`none`) out of bounds, otherwise overwrites
the element at `x + y * width`. -/
def set {T : Type} (g : Grid T) (x y : Nat) (t : T) : Option (Grid T) :=
  if g.width ≤ x ∨ g.height ≤ y then none
  else some ⟨g.width, g.height, g.s.set (x + y * g.width) t⟩

/-- `Grid::fill(t)`: replaces every cell of the buffer by `t`. -/
def fill {T : Type} (g : Grid T) (t : T) : Grid T :=
  ⟨g.width, g.height, g.s.map (fun _ => t)⟩

/-- Writes one row starting at column `x`:
`for (x, val) in row.iter().enumerate() { s.set(x, y, val) }`
with the running index made explicit. -/
def setRowFrom {T : Type} (y : Nat) : Grid T → Nat → List T → Option (Grid T)
  | g, _, [] => some g
  | g, x, val :: rest => do
      let g' ← g.set x y val
      setRowFrom y g' (x + 1) rest

/-- Writes the rows one below the other:
`for (y, row) in v.iter().enumerate() { ... }`. -/
def setRows {T : Type} : Grid T → Nat → List (List T) → Option (Grid T)
  | g, _, [] => some g
  | g, y, row :: rest => do
      let g' ← setRows.go g y row
      setRows g' (y + 1) rest
where go {T : Type} (g : Grid T) (y : Nat) (row : List T) : Option (Grid T) :=
  setRowFrom y g 0 row

/-- `Grid::from_vec(v)`: reads `v[0][0]` (panicking when `v` or its first row
is empty), allocates a `v[0].len() × v.len()` grid filled with it, then
copies every row element by element with `set`. -/
def from_vec {T : Type} (v : List (List T)) : Option (Grid T) := do
  let r0 ← v.head?
  let t0 ← r0.head?
  setRows (new r0.length v.length t0) 0 v

end Grid

/-! ## GridBuilder (src/aoc/src/grid.rs) -/

/-- `GridBuilder<T>`: remembered `width`, running `height`, growable
buffer `s : Vec<T>`. -/
structure GridBuilder (T : Type) where
  width : Nat
  height : Nat
  s : List T
deriving DecidableEq

namespace GridBuilder

/-- `GridBuilder::new()`. -/
def new {T : Type} : GridBuilder T := ⟨0, 0, []⟩

/-- `GridBuilder::append_line(line)`: the first row fixes `width`; later rows
panic (`none`) when their length differs; the row is appended to `s` and
`height` is incremented. -/
def append_line {T : Type} (b : GridBuilder T) (line : List T) :
    Option (GridBuilder T) :=
  if b.height = 0 then some ⟨line.length, b.height + 1, b.s ++ line⟩
  else if b.width ≠ line.length then none
  else some ⟨b.width, b.height + 1, b.s ++ line⟩

/-- `GridBuilder::to_grid()`: panics (`none`) when the buffer is still empty,
otherwise hands the accumulated buffer to a `Grid`. -/
def to_grid {T : Type} (b : GridBuilder T) : Option (Grid T) :=
  if b.s.isEmpty then none
  else some ⟨b.width, b.height, b.s⟩

/-- Appending a list of rows one by one to a fresh builder. -/
def buildFrom {T : Type} (rows : List (List T)) : Option (GridBuilder T) :=
  rows.foldlM (fun b line => b.append_line line) new

/-- Appending a list of rows to a fresh builder and finalizing. -/
def buildGrid {T : Type} (rows : List (List T)) : Option (Grid T) :=
  (buildFrom rows).bind to_grid

end GridBuilder

/-! ## Row-major index arithmetic -/

theorem index_lt {x y w h : Nat} (hx : x < w) (hy : y < h) : x + y * w < w * h := by
  calc x + y * w < w + y * w := by omega
    _ = (y + 1) * w := by ring
    _ ≤ h * w := Nat.mul_le_mul_right _ hy
    _ = w * h := Nat.mul_comm _ _

theorem index_inj {x y x' y' w : Nat} (hx : x < w) (hx' : x' < w)
    (h : x + y * w = x' + y' * w) : x = x' ∧ y = y' := by
  have hxx : x = x' := by
    have h1 : (x + y * w) % w = x := by
      rw [Nat.add_mul_mod_self_right]
      exact Nat.mod_eq_of_lt hx
    have h2 : (x' + y' * w) % w = x' := by
      rw [Nat.add_mul_mod_self_right]
      exact Nat.mod_eq_of_lt hx'
    rw [← h1, ← h2, h]
  refine ⟨hxx, ?_⟩
  subst hxx
  have hw : 0 < w := by omega
  have := Nat.add_left_cancel h
  exact Nat.eq_of_mul_eq_mul_right hw this

namespace Grid

theorem get_mk {T : Type} (w h : Nat) (s : List T) (x y : Nat) :
    (Grid.mk w h s).get x y = if w ≤ x ∨ h ≤ y then none else s[x + y * w]? := rfl

/-- C8: on a well-formed grid, `checked_get` returns `none` for every
coordinate pair outside `[0,width) × [0,height)` (negative coordinates
included) and never panics, `get` panics for every out-of-bounds pair of
unsigned coordinates, and for every in-bounds pair `checked_get` returns the
stored element, the same one `get` reads. -/
theorem checked_get_get_spec {T : Type} (g : Grid T) (hwf : g.WF) :
    (∀ x y : Int, (x < 0 ∨ y < 0 ∨ (g.width : Int) ≤ x ∨ (g.height : Int) ≤ y) →
      g.checked_get x y = none) ∧
    (∀ x y : Nat, (g.width ≤ x ∨ g.height ≤ y) → g.get x y = none) ∧
    (∀ x y : Int, 0 ≤ x → 0 ≤ y → x < (g.width : Int) → y < (g.height : Int) →
      ∃ t, g.checked_get x y = some t ∧ g.get x.toNat y.toNat = some t) := by
  refine ⟨?_, ?_, ?_⟩
  · intro x y hxy
    unfold checked_get
    rw [if_pos]
    omega
  · intro x y hxy
    unfold get
    rw [if_pos hxy]
  · intro x y hx0 hy0 hxw hyh
    have hx : x.toNat < g.width := by omega
    have hy : y.toNat < g.height := by omega
    have hidx : x.toNat + y.toNat * g.width < g.s.length := by
      rw [hwf]; exact index_lt hx hy
    refine ⟨g.s[x.toNat + y.toNat * g.width], ?_, ?_⟩
    · unfold checked_get
      rw [if_neg (by omega)]
      exact List.getElem?_eq_getElem hidx
    · unfold get
      rw [if_neg (by omega)]
      exact List.getElem?_eq_getElem hidx

theorem checked_get_get_spec_witness :
    (Grid.new 2 3 (7 : Nat)).WF ∧
    ((∀ x y : Int,
        (x < 0 ∨ y < 0 ∨ ((Grid.new 2 3 (7 : Nat)).width : Int) ≤ x ∨
          ((Grid.new 2 3 (7 : Nat)).height : Int) ≤ y) →
        (Grid.new 2 3 (7 : Nat)).checked_get x y = none) ∧
      (∀ x y : Nat,
        ((Grid.new 2 3 (7 : Nat)).width ≤ x ∨ (Grid.new 2 3 (7 : Nat)).height ≤ y) →
        (Grid.new 2 3 (7 : Nat)).get x y = none) ∧
      (∀ x y : Int, 0 ≤ x → 0 ≤ y → x < ((Grid.new 2 3 (7 : Nat)).width : Int) →
        y < ((Grid.new 2 3 (7 : Nat)).height : Int) →
        ∃ t, (Grid.new 2 3 (7 : Nat)).checked_get x y = some t ∧
          (Grid.new 2 3 (7 : Nat)).get x.toNat y.toNat = some t)) :=
  ⟨by decide, checked_get_get_spec (Grid.new 2 3 7) (by decide)⟩

/-- C10: on a well-formed grid, `set` at in-bounds `(x, y)` succeeds, stores
`v` at `(x, y)`, leaves every other in-bounds cell unchanged and preserves
`width`, `height` and the buffer-length invariant; `fill` also preserves
them. -/
theorem set_fill_spec {T : Type} (g : Grid T) (hwf : g.WF) (x y : Nat) (v : T)
    (hx : x < g.width) (hy : y < g.height) :
    ∃ g', g.set x y v = some g' ∧
      g'.width = g.width ∧ g'.height = g.height ∧
      g'.s.length = g'.width * g'.height ∧
      g'.get x y = some v ∧
      (∀ x' y', x' < g.width → y' < g.height → ¬(x' = x ∧ y' = y) →
        g'.get x' y' = g.get x' y') ∧
      (g.fill v).width = g.width ∧ (g.fill v).height = g.height ∧
      (g.fill v).s.length = (g.fill v).width * (g.fill v).height := by
  have hidx : x + y * g.width < g.s.length := by rw [hwf]; exact index_lt hx hy
  refine ⟨⟨g.width, g.height, g.s.set (x + y * g.width) v⟩, ?_, rfl, rfl, ?_, ?_, ?_, rfl, rfl, ?_⟩
  · unfold set
    rw [if_neg (by omega)]
  · simpa using hwf
  · rw [get_mk, if_neg (by omega)]
    exact List.getElem?_set_self hidx
  · intro x' y' hx' hy' hne
    rw [get_mk, if_neg (by omega)]
    unfold get
    rw [if_neg (by omega)]
    refine List.getElem?_set_ne ?_
    intro hc
    exact hne ⟨(index_inj hx hx' hc).1.symm, (index_inj hx hx' hc).2.symm⟩
  · simpa [fill] using hwf

theorem set_fill_spec_witness :
    (Grid.new 2 3 (0 : Nat)).WF ∧ 1 < (Grid.new 2 3 (0 : Nat)).width ∧
      0 < (Grid.new 2 3 (0 : Nat)).height ∧
    (∃ g', (Grid.new 2 3 (0 : Nat)).set 1 0 5 = some g' ∧
      g'.width = (Grid.new 2 3 (0 : Nat)).width ∧
      g'.height = (Grid.new 2 3 (0 : Nat)).height ∧
      g'.s.length = g'.width * g'.height ∧
      g'.get 1 0 = some 5 ∧
      (∀ x' y', x' < (Grid.new 2 3 (0 : Nat)).width →
        y' < (Grid.new 2 3 (0 : Nat)).height → ¬(x' = 1 ∧ y' = 0) →
        g'.get x' y' = (Grid.new 2 3 (0 : Nat)).get x' y') ∧
      ((Grid.new 2 3 (0 : Nat)).fill 5).width = (Grid.new 2 3 (0 : Nat)).width ∧
      ((Grid.new 2 3 (0 : Nat)).fill 5).height = (Grid.new 2 3 (0 : Nat)).height ∧
      ((Grid.new 2 3 (0 : Nat)).fill 5).s.length =
        ((Grid.new 2 3 (0 : Nat)).fill 5).width * ((Grid.new 2 3 (0 : Nat)).fill 5).height) :=
  ⟨by decide, by decide, by decide,
    set_fill_spec (Grid.new 2 3 0) (by decide) 1 0 5 (by decide) (by decide)⟩

end Grid

/-- A well-formed 3-wide, 2-high grid holding rows `[1,2,3]` and `[4,5,6]`. -/
def gridWide : Grid Nat := ⟨3, 2, [1, 2, 3, 4, 5, 6]⟩

/-- A well-formed 2-wide, 3-high grid holding rows `[1,2]`, `[3,4]`, `[5,6]`. -/
def gridTall : Grid Nat := ⟨2, 3, [1, 2, 3, 4, 5, 6]⟩

/-- C2: the source slices `s[y*width .. y*width + height]` instead of
`s[y*width .. y*width + width]`, contradicting both its own comment
("return a slice of size width of all elements of row Y") and the spec.  On
a 3×2 grid, row 0 comes back as `[1, 2]` — length `height = 2`, not the full
row `[1, 2, 3]` of length `width = 3` — and on a 2×3 grid the in-bounds row
`y = 2` panics because the slice end `2*2 + 3 = 7` exceeds the buffer
length 6. -/
theorem get_row_slice_divergence :
    gridWide.WF ∧ gridWide.get_row_slice 0 = some [1, 2] ∧
    [1, 2].length ≠ gridWide.width ∧ gridWide.get 2 0 = some 3 ∧
    gridTall.WF ∧ 2 < gridTall.height ∧ gridTall.get_row_slice 2 = none := by
  decide

/-! ## GridBuilder lemmas -/

namespace GridBuilder

theorem append_line_s {T : Type} {b b' : GridBuilder T} {line : List T}
    (h : b.append_line line = some b') : b'.s = b.s ++ line := by
  unfold append_line at h
  split_ifs at h <;> simp only [Option.some.injEq] at h <;> subst h <;> rfl

theorem foldl_append_line_s {T : Type} :
    ∀ (rows : List (List T)) (b b' : GridBuilder T),
      rows.foldlM (fun b line => b.append_line line) b = some b' →
      ∃ t, b'.s = b.s ++ t := by
  intro rows
  induction rows with
  | nil =>
    intro b b' h
    simp only [List.foldlM_nil, Option.pure_def, Option.some.injEq] at h
    exact ⟨[], by simp [← h]⟩
  | cons r rest ih =>
    intro b b' h
    simp only [List.foldlM_cons, Option.bind_eq_bind] at h
    rcases Option.bind_eq_some.mp h with ⟨b1, h1, h2⟩
    rcases ih b1 b' h2 with ⟨t, ht⟩
    exact ⟨r ++ t, by rw [ht, append_line_s h1, List.append_assoc]⟩

/-- C3 as stated fails: appending a single empty row leaves the buffer empty,
so `to_grid` still panics even though `append_line` succeeded once. -/
theorem to_grid_after_append_cex :
    ((GridBuilder.new : GridBuilder Nat).append_line []).bind GridBuilder.to_grid = none ∧
    ((GridBuilder.new : GridBuilder Nat).append_line []).isSome = true := by
  decide

/-- C3 (amended): `to_grid` fails fatally exactly when the accumulated
buffer is empty — in particular when zero rows were ever appended — and for
every builder obtained by appending at least one row whose first row is
non-empty, `to_grid` succeeds and returns a Grid. -/
theorem to_grid_spec {T : Type} :
    ((GridBuilder.new : GridBuilder T).to_grid = none) ∧
    (∀ b : GridBuilder T, b.to_grid = none ↔ b.s = []) ∧
    (∀ (r0 : List T) (rows : List (List T)) (b : GridBuilder T),
      r0 ≠ [] → GridBuilder.buildFrom (r0 :: rows) = some b →
      ∃ g, b.to_grid = some g) := by
  refine ⟨rfl, ?_, ?_⟩
  · intro b
    unfold to_grid
    constructor
    · intro h
      by_cases hb : b.s.isEmpty
      · exact List.isEmpty_iff.mp hb
      · rw [if_neg hb] at h
        exact absurd h (by simp)
    · intro h
      rw [if_pos (List.isEmpty_iff.mpr h)]
  · intro r0 rows b h0 hb
    unfold buildFrom at hb
    simp only [List.foldlM_cons, Option.bind_eq_bind] at hb
    rcases Option.bind_eq_some.mp hb with ⟨b1, h1, h2⟩
    have hb1 : b1.s = GridBuilder.new.s ++ r0 := append_line_s h1
    rcases foldl_append_line_s rows b1 b h2 with ⟨t, ht⟩
    have hs : b.s = r0 ++ t := by
      rw [ht, hb1]
      simp [GridBuilder.new]
    refine ⟨⟨b.width, b.height, b.s⟩, ?_⟩
    unfold to_grid
    rw [if_neg ?_]
    simp only [List.isEmpty_iff, hs]
    intro hc
    exact h0 (List.append_eq_nil.mp hc).1

theorem to_grid_spec_witness :
    ((GridBuilder.new : GridBuilder Nat).to_grid = none) ∧
    ([1] ≠ ([] : List Nat)) ∧
    GridBuilder.buildFrom [[1], [2]] = some (⟨1, 2, [1, 2]⟩ : GridBuilder Nat) ∧
    (∃ g, (⟨1, 2, [1, 2]⟩ : GridBuilder Nat).to_grid = some g) :=
  ⟨(to_grid_spec).1, by decide, by decide,
    (to_grid_spec).2.2 [1] [[2]] ⟨1, 2, [1, 2]⟩ (by decide) (by decide)⟩

theorem buildFold_uniform {T : Type} :
    ∀ (rows : List (List T)) (b : GridBuilder T), b.height ≠ 0 →
      (∀ r ∈ rows, r.length = b.width) →
      rows.foldlM (fun b line => b.append_line line) b =
        some ⟨b.width, b.height + rows.length, b.s ++ rows.flatten⟩ := by
  intro rows
  induction rows with
  | nil => intro b hb hlen; simp
  | cons r rest ih =>
    intro b hb hlen
    have hw : b.width = r.length := (hlen r (by simp)).symm
    have h1 : b.append_line r = some ⟨b.width, b.height + 1, b.s ++ r⟩ := by
      unfold append_line
      rw [if_neg hb, if_neg (by omega)]
    simp only [List.foldlM_cons, Option.bind_eq_bind, h1, Option.some_bind]
    rw [ih ⟨b.width, b.height + 1, b.s ++ r⟩ (by simp) (fun r' hr' => hlen r' (by simp [hr']))]
    have harith : b.height + 1 + rest.length = b.height + (rest.length + 1) := by omega
    simp [harith, List.append_assoc]

theorem buildGrid_uniform {T : Type} (r0 : List T) (rows : List (List T))
    (h0 : r0 ≠ []) (hlen : ∀ r ∈ rows, r.length = r0.length) :
    GridBuilder.buildGrid (r0 :: rows) =
      some ⟨r0.length, 1 + rows.length, r0 ++ rows.flatten⟩ := by
  have h1 : GridBuilder.new.append_line r0 =
      some (⟨r0.length, 1, r0⟩ : GridBuilder T) := rfl
  unfold buildGrid buildFrom
  simp only [List.foldlM_cons, Option.bind_eq_bind, h1, Option.some_bind]
  rw [buildFold_uniform rows ⟨r0.length, 1, r0⟩ (by simp) (by simpa using hlen)]
  simp only [Option.some_bind]
  unfold to_grid
  rw [if_neg (by simp [h0])]

end GridBuilder

theorem flatten_length_uniform {T : Type} :
    ∀ (rows : List (List T)) (W : Nat), (∀ r ∈ rows, r.length = W) →
      rows.flatten.length = W * rows.length := by
  intro rows
  induction rows with
  | nil => intro W _; simp
  | cons r rest ih =>
    intro W hlen
    simp only [List.flatten_cons, List.length_append, List.length_cons]
    rw [hlen r (by simp), ih W (fun r' hr' => hlen r' (by simp [hr']))]
    ring

theorem flatten_getElem_uniform {T : Type} :
    ∀ (rows : List (List T)) (W x y : Nat), (∀ r ∈ rows, r.length = W) →
      x < W → rows.flatten[x + y * W]? = rows[y]?.bind (fun r => r[x]?) := by
  intro rows
  induction rows with
  | nil => intro W x y _ _; simp
  | cons r rest ih =>
    intro W x y hlen hx
    have hr : r.length = W := hlen r (by simp)
    cases y with
    | zero =>
      simp only [Nat.zero_mul, Nat.add_zero, List.flatten_cons, List.getElem?_cons_zero,
        Option.some_bind]
      exact List.getElem?_append_left (by omega)
    | succ y =>
      have harith : x + (y + 1) * W = r.length + (x + y * W) := by rw [hr]; ring
      simp only [List.flatten_cons, harith, List.getElem?_cons_succ]
      rw [List.getElem?_append_right (by omega), Nat.add_sub_cancel_left]
      exact ih W x y (fun r' hr' => hlen r' (by simp [hr'])) hx

/-- C6 as stated fails when the common row width is zero: appending the
single empty row and finalizing panics instead of yielding a 0×1 grid. -/
theorem build_roundtrip_cex : GridBuilder.buildGrid [([] : List Nat)] = none := by
  decide

/-- C6 (amended): for every sequence of `N ≥ 1` rows of common width
`W ≥ 1`, appending them in order and finalizing yields a grid with
`height = N`, `width = W`, a well-formed buffer, and `get (x, y)` equal to
element `x` of the `y`-th appended row for every in-bounds `(x, y)`. -/
theorem build_roundtrip {T : Type} (W : Nat) (hW : 0 < W) (rows : List (List T))
    (hne : rows ≠ []) (hlen : ∀ r ∈ rows, r.length = W) :
    ∃ g, GridBuilder.buildGrid rows = some g ∧ g.height = rows.length ∧
      g.width = W ∧ g.WF ∧
      ∀ y r, rows[y]? = some r → ∀ x, x < W → g.get x y = r[x]? := by
  rcases rows with _ | ⟨r0, rest⟩
  · exact absurd rfl hne
  have hw0 : r0.length = W := hlen r0 (by simp)
  have h0 : r0 ≠ [] := by
    intro hc
    rw [hc] at hw0
    simp at hw0
    omega
  rw [GridBuilder.buildGrid_uniform r0 rest h0
    (fun r hr => by rw [hlen r (by simp [hr]), hw0])]
  refine ⟨_, rfl, by simp; omega, by simpa using hw0, ?_, ?_⟩
  · show (r0 ++ rest.flatten).length = r0.length * (1 + rest.length)
    have hflat : (r0 :: rest).flatten.length = W * (r0 :: rest).length :=
      flatten_length_uniform (r0 :: rest) W hlen
    simp only [List.flatten_cons, List.length_cons] at hflat
    rw [hflat, hw0]
    ring
  · intro y r hy x hx
    have hylen : y < (r0 :: rest).length := by
      by_contra hc
      rw [List.getElem?_eq_none (by omega)] at hy
      cases hy
    simp only [List.length_cons] at hylen
    rw [Grid.get_mk, if_neg (by omega)]
    have hidx : (x + y * r0.length) = x + y * W := by rw [hw0]
    rw [hidx]
    have hget := flatten_getElem_uniform (r0 :: rest) W x y hlen hx
    simp only [List.flatten_cons] at hget
    rw [hget, hy, Option.some_bind]

/-! ## from_vec lemmas -/

namespace Grid

theorem set_eq_some {T : Type} (g : Grid T) (x y : Nat) (v : T)
    (hx : x < g.width) (hy : y < g.height) :
    g.set x y v = some ⟨g.width, g.height, g.s.set (x + y * g.width) v⟩ := by
  unfold set
  rw [if_neg (by omega)]

theorem set_oob {T : Type} (g : Grid T) (x y : Nat) (v : T)
    (hxy : g.width ≤ x ∨ g.height ≤ y) : g.set x y v = none := by
  unfold set
  rw [if_pos hxy]

theorem setRowFrom_nil {T : Type} (y : Nat) (g : Grid T) (x : Nat) :
    Grid.setRowFrom y g x [] = some g := rfl

theorem setRowFrom_cons {T : Type} (y : Nat) (g : Grid T) (x : Nat) (val : T)
    (rest : List T) :
    Grid.setRowFrom y g x (val :: rest) =
      (g.set x y val).bind (fun g' => Grid.setRowFrom y g' (x + 1) rest) := rfl

theorem setRows_nil {T : Type} (g : Grid T) (y : Nat) :
    Grid.setRows g y [] = some g := rfl

theorem setRows_cons {T : Type} (g : Grid T) (y : Nat) (row : List T)
    (rest : List (List T)) :
    Grid.setRows g y (row :: rest) =
      (Grid.setRowFrom y g 0 row).bind (fun g' => Grid.setRows g' (y + 1) rest) := rfl

theorem setRowFrom_spec {T : Type} :
    ∀ (row : List T) (g : Grid T) (x0 y : Nat),
      g.s.length = g.width * g.height → y < g.height → x0 + row.length ≤ g.width →
      ∃ g', Grid.setRowFrom y g x0 row = some g' ∧
        g'.width = g.width ∧ g'.height = g.height ∧ g'.s.length = g.s.length ∧
        (∀ i, i < x0 + y * g.width ∨ x0 + y * g.width + row.length ≤ i →
          g'.s[i]? = g.s[i]?) ∧
        (∀ j, j < row.length → g'.s[x0 + y * g.width + j]? = row[j]?) := by
  intro row
  induction row with
  | nil =>
    intro g x0 y _ _ _
    exact ⟨g, setRowFrom_nil y g x0, rfl, rfl, rfl, fun i _ => rfl,
      fun j hj => absurd hj (by simp)⟩
  | cons val rest ih =>
    intro g x0 y hwf hy hlen
    simp only [List.length_cons] at hlen
    have hx0 : x0 < g.width := by omega
    have hbase : x0 + y * g.width < g.s.length := by
      rw [hwf]; exact index_lt hx0 hy
    rw [setRowFrom_cons, set_eq_some g x0 y val hx0 hy, Option.some_bind]
    have hwf1 : (g.s.set (x0 + y * g.width) val).length = g.width * g.height := by
      rw [List.length_set]; exact hwf
    rcases ih ⟨g.width, g.height, g.s.set (x0 + y * g.width) val⟩ (x0 + 1) y hwf1 hy
        (by show x0 + 1 + rest.length ≤ g.width; omega) with
      ⟨g', hrun, hw, hh, hl, huntouched, hwritten⟩
    dsimp only at hw hh hl huntouched hwritten
    refine ⟨g', hrun, hw, hh, by simpa [List.length_set] using hl, ?_, ?_⟩
    · intro i hi
      simp only [List.length_cons] at hi
      have h1 : g'.s[i]? = (g.s.set (x0 + y * g.width) val)[i]? := by
        apply huntouched
        show i < x0 + 1 + y * g.width ∨ x0 + 1 + y * g.width + rest.length ≤ i
        omega
      rw [h1]
      exact List.getElem?_set_ne (by omega)
    · intro j hj
      cases j with
      | zero =>
        have h1 : g'.s[x0 + y * g.width + 0]? =
            (g.s.set (x0 + y * g.width) val)[x0 + y * g.width + 0]? := by
          apply huntouched
          omega
        rw [h1]
        simp only [Nat.add_zero, List.getElem?_cons_zero]
        exact List.getElem?_set_self hbase
      | succ j =>
        simp only [List.length_cons] at hj
        have h1 := hwritten j (by omega)
        have harith : x0 + 1 + y * g.width + j = x0 + y * g.width + (j + 1) := by omega
        rw [harith] at h1
        rw [h1, List.getElem?_cons_succ]

theorem setRowFrom_none {T : Type} :
    ∀ (row : List T) (g : Grid T) (x0 y : Nat),
      g.width < x0 + row.length → row ≠ [] →
      Grid.setRowFrom y g x0 row = none := by
  intro row
  induction row with
  | nil => intro g x0 y _ hne; exact absurd rfl hne
  | cons val rest ih =>
    intro g x0 y hlen _
    simp only [List.length_cons] at hlen
    rw [setRowFrom_cons]
    by_cases hx0 : g.width ≤ x0
    · rw [set_oob g x0 y val (Or.inl hx0)]
      rfl
    · by_cases hy : g.height ≤ y
      · rw [set_oob g x0 y val (Or.inr hy)]
        rfl
      · rw [set_eq_some g x0 y val (by omega) (by omega), Option.some_bind]
        rcases rest with _ | ⟨v2, rest2⟩
        · simp only [List.length_nil] at hlen
          omega
        · refine ih ⟨g.width, g.height, _⟩ (x0 + 1) y ?_ (by simp)
          show g.width < x0 + 1 + (v2 :: rest2).length
          simp only [List.length_cons] at hlen ⊢
          omega

theorem get_def {T : Type} (g : Grid T) (x y : Nat) :
    g.get x y =
      if g.width ≤ x ∨ g.height ≤ y then none else g.s[x + y * g.width]? := rfl

theorem setRows_spec {T : Type} :
    ∀ (rows : List (List T)) (g : Grid T) (y0 : Nat),
      g.s.length = g.width * g.height → y0 + rows.length ≤ g.height →
      (∀ r ∈ rows, r.length ≤ g.width) →
      ∃ g', Grid.setRows g y0 rows = some g' ∧
        g'.width = g.width ∧ g'.height = g.height ∧ g'.s.length = g.s.length ∧
        (∀ i, i < y0 * g.width → g'.s[i]? = g.s[i]?) ∧
        (∀ k r, rows[k]? = some r → ∀ x,
          (x < r.length → g'.s[x + (y0 + k) * g.width]? = r[x]?) ∧
          (r.length ≤ x → x < g.width →
            g'.s[x + (y0 + k) * g.width]? = g.s[x + (y0 + k) * g.width]?)) := by
  intro rows
  induction rows with
  | nil =>
    intro g y0 hwf hb hlen
    refine ⟨g, setRows_nil g y0, rfl, rfl, rfl, fun i _ => rfl, ?_⟩
    intro k r hk
    simp at hk
  | cons r rest ih =>
    intro g y0 hwf hb hlen
    simp only [List.length_cons] at hb
    have hy0 : y0 < g.height := by omega
    have hr : r.length ≤ g.width := hlen r (by simp)
    obtain ⟨g1, hrun1, hw1, hh1, hl1, hun1, hwr1⟩ :=
      setRowFrom_spec r g 0 y0 hwf hy0 (by omega)
    rw [setRows_cons, hrun1, Option.some_bind]
    have hwf1 : g1.s.length = g1.width * g1.height := by
      rw [hl1, hw1, hh1]; exact hwf
    have hb1 : (y0 + 1) + rest.length ≤ g1.height := by rw [hh1]; omega
    have hlen1 : ∀ r' ∈ rest, r'.length ≤ g1.width := fun r' h' => by
      rw [hw1]; exact hlen r' (by simp [h'])
    obtain ⟨g', hrun, hw, hh, hl, hun, hwr⟩ := ih g1 (y0 + 1) hwf1 hb1 hlen1
    rw [hw1] at hw hun hwr
    rw [hh1] at hh
    rw [hl1] at hl
    refine ⟨g', hrun, hw, hh, hl, ?_, ?_⟩
    · intro i hi
      have hmul : y0 * g.width ≤ (y0 + 1) * g.width :=
        Nat.mul_le_mul_right _ (by omega)
      rw [hun i (by omega)]
      apply hun1
      left
      omega
    · intro k r' hk x
      cases k with
      | zero =>
        simp only [List.getElem?_cons_zero, Option.some.injEq] at hk
        subst hk
        have h2 : (y0 + 1) * g.width = y0 * g.width + g.width := by ring
        have h3 : (y0 + 0) * g.width = y0 * g.width := by ring
        constructor
        · intro hx
          rw [hun _ (by omega)]
          have hval := hwr1 x hx
          have harith : x + (y0 + 0) * g.width = 0 + y0 * g.width + x := by
            rw [h3]; ring
          rw [harith]
          exact hval
        · intro hrx hxw
          rw [hun _ (by omega)]
          apply hun1
          right
          omega
      | succ k =>
        simp only [List.getElem?_cons_succ] at hk
        have hx := hwr k r' hk x
        have harith : (y0 + (k + 1)) * g.width = (y0 + 1 + k) * g.width := by ring
        have h5 : (y0 + 1) * g.width ≤ (y0 + 1 + k) * g.width :=
          Nat.mul_le_mul_right _ (by omega)
        have h6 : (y0 + 1) * g.width = y0 * g.width + g.width := by ring
        constructor
        · intro hxr
          rw [harith]
          exact hx.1 hxr
        · intro hrx hxw
          rw [harith, hx.2 hrx hxw]
          apply hun1
          right
          omega

theorem setRows_none {T : Type} :
    ∀ (rows : List (List T)) (g : Grid T) (y0 : Nat),
      g.s.length = g.width * g.height → y0 + rows.length ≤ g.height →
      (∃ r ∈ rows, g.width < r.length) →
      Grid.setRows g y0 rows = none := by
  intro rows
  induction rows with
  | nil =>
    intro g y0 _ _ hex
    simp at hex
  | cons r rest ih =>
    intro g y0 hwf hb hex
    simp only [List.length_cons] at hb
    rw [setRows_cons]
    by_cases hlong : g.width < r.length
    · rw [setRowFrom_none r g 0 y0 (by omega) (by intro hc; subst hc; simp at hlong)]
      rfl
    · push_neg at hlong
      obtain ⟨g1, hrun1, hw1, hh1, hl1, _, _⟩ :=
        setRowFrom_spec r g 0 y0 hwf (by omega) (by omega)
      rw [hrun1, Option.some_bind]
      apply ih g1 (y0 + 1) (by rw [hl1, hw1, hh1]; exact hwf) (by rw [hh1]; omega)
      rcases hex with ⟨r', hr', hlong'⟩
      rcases List.mem_cons.mp hr' with h | h
      · subst h; omega
      · exact ⟨r', h, by rw [hw1]; exact hlong'⟩

/-- C9: `from_vec` on a non-empty row list whose first row is non-empty:
when no row is longer than the first, it builds a grid sized by the first
row (width) and the row count (height) where each cell covered by its row
holds that row's element and each remaining cell holds the first element of
the first row; when some row is longer than the first, construction panics. -/
theorem from_vec_spec {T : Type} (t0 : T) (r0t : List T) (rest : List (List T)) :
    ((∀ r ∈ (t0 :: r0t) :: rest, r.length ≤ (t0 :: r0t).length) →
      ∃ g, Grid.from_vec ((t0 :: r0t) :: rest) = some g ∧
        g.width = (t0 :: r0t).length ∧ g.height = rest.length + 1 ∧ g.WF ∧
        (∀ y r, ((t0 :: r0t) :: rest)[y]? = some r → ∀ x, x < (t0 :: r0t).length →
          g.get x y = some (r.getD x t0))) ∧
    ((∃ r ∈ (t0 :: r0t) :: rest, (t0 :: r0t).length < r.length) →
      Grid.from_vec ((t0 :: r0t) :: rest) = none) := by
  have hfv : Grid.from_vec ((t0 :: r0t) :: rest) =
      Grid.setRows (Grid.new (t0 :: r0t).length (rest.length + 1) t0) 0
        ((t0 :: r0t) :: rest) := rfl
  have hwfn : (Grid.new (t0 :: r0t).length (rest.length + 1) t0).s.length =
      (Grid.new (t0 :: r0t).length (rest.length + 1) t0).width *
        (Grid.new (t0 :: r0t).length (rest.length + 1) t0).height := by
    simp [Grid.new]
  have hbound : 0 + ((t0 :: r0t) :: rest).length ≤
      (Grid.new (t0 :: r0t).length (rest.length + 1) t0).height := by
    simp [Grid.new]
  constructor
  · intro hle
    obtain ⟨g, hrun, hw, hh, hl, hun, hwr⟩ :=
      setRows_spec ((t0 :: r0t) :: rest)
        (Grid.new (t0 :: r0t).length (rest.length + 1) t0) 0 hwfn hbound
        (fun r hm => hle r hm)
    rw [hfv, hrun]
    have hwn : (Grid.new (t0 :: r0t).length (rest.length + 1) t0).width =
        (t0 :: r0t).length := rfl
    have hhn : (Grid.new (t0 :: r0t).length (rest.length + 1) t0).height =
        rest.length + 1 := rfl
    rw [hwn] at hw hwr
    rw [hhn] at hh
    refine ⟨g, rfl, hw, hh, ?_, ?_⟩
    · unfold WF
      rw [hl, hw, hh]
      simp [Grid.new]
    · intro y r hy x hx
      have hylt : y < rest.length + 1 := by
        by_contra hc
        rw [List.getElem?_eq_none (by simp; omega)] at hy
        cases hy
      have hrlen : r.length ≤ (t0 :: r0t).length := by
        apply hle
        exact List.getElem?_mem hy
      rw [get_def, if_neg (by rw [hw, hh]; omega), hw]
      have hcell := hwr y r hy x
      have harith : x + y * (t0 :: r0t).length = x + (0 + y) * (t0 :: r0t).length := by
        ring
      rw [harith]
      by_cases hxr : x < r.length
      · rw [hcell.1 hxr, List.getD_eq_getElem?_getD, List.getElem?_eq_getElem hxr]
        rfl
      · push_neg at hxr
        rw [hcell.2 hxr hx]
        have hidx : x + (0 + y) * (t0 :: r0t).length <
            (t0 :: r0t).length * (rest.length + 1) := by
          have := index_lt hx hylt
          simpa using this
        show (List.replicate ((t0 :: r0t).length * (rest.length + 1)) t0)[x + (0 + y) * (t0 :: r0t).length]? = _
        rw [List.getElem?_replicate, if_pos hidx, List.getD_eq_getElem?_getD,
          List.getElem?_eq_none hxr]
        rfl
  · intro hex
    rw [hfv]
    exact setRows_none _ _ 0 hwfn hbound hex

end Grid

theorem from_vec_spec_witness :
    (∀ r ∈ ([[1, 2, 3], [4]] : List (List Nat)), r.length ≤ ([1, 2, 3] : List Nat).length) ∧
    (∃ g, Grid.from_vec ([[1, 2, 3], [4]] : List (List Nat)) = some g ∧
      g.width = ([1, 2, 3] : List Nat).length ∧
      g.height = ([[4]] : List (List Nat)).length + 1 ∧ g.WF ∧
      (∀ y r, ([[1, 2, 3], [4]] : List (List Nat))[y]? = some r →
        ∀ x, x < ([1, 2, 3] : List Nat).length → g.get x y = some (r.getD x 1))) ∧
    (∃ r ∈ ([[1, 2, 3], [4, 5, 6, 7]] : List (List Nat)),
      ([1, 2, 3] : List Nat).length < r.length) ∧
    Grid.from_vec ([[1, 2, 3], [4, 5, 6, 7]] : List (List Nat)) = none :=
  ⟨by decide, (Grid.from_vec_spec 1 [2, 3] [[4]]).1 (by decide), by decide,
    (Grid.from_vec_spec 1 [2, 3] [[4, 5, 6, 7]]).2 (by decide)⟩

theorem build_roundtrip_witness :
    0 < 2 ∧ ([[1, 2], [3, 4]] : List (List Nat)) ≠ [] ∧
    (∀ r ∈ ([[1, 2], [3, 4]] : List (List Nat)), r.length = 2) ∧
    (∃ g, GridBuilder.buildGrid [[1, 2], [3, 4]] = some g ∧
      g.height = ([[1, 2], [3, 4]] : List (List Nat)).length ∧ g.width = 2 ∧ g.WF ∧
      ∀ y r, ([[1, 2], [3, 4]] : List (List Nat))[y]? = some r → ∀ x, x < 2 →
        g.get x y = r[x]?) :=
  ⟨by decide, by decide, by decide,
    build_roundtrip 2 (by decide) [[1, 2], [3, 4]] (by decide) (by decide)⟩

/-! ## Dijkstra (src/aoc/src/dijkstra.rs)

`usize` distances become `Nat`; the `HashSet` of finalized nodes and the
`HashMap` frontier become lists (the frontier an association list with
no-duplicate keys); the sequence of `mark_visited_distance` callbacks is
recorded in a trace.  `min_by` over the `HashMap` iterates in an unspecified
order, so any minimal entry may be selected; the embedding fixes one
concrete choice. -/

/-- The `DijkstraController` trait: start node, target node and the lazy
neighbor/weight oracle.  `mark_visited_distance` is modelled by the trace in
`DijkstraState`. -/
structure DijkstraController (Node : Type) where
  get_starting_node : Node
  get_target_node : Node
  get_neighbors_distances : Node → List (Node × Nat)

/-- `usize::MAX`, the sentinel returned for an unreachable target. -/
def usizeMax : Nat := 2 ^ 64 - 1

/-- The engine's transient state: `finalized_nodes` (the `HashSet`),
`unvisited_frontier` (the `HashMap`, entries `(node, (distance, previous))`)
and the ordered record of `mark_visited_distance(node, distance, previous)`
calls. -/
structure DijkstraState (Node : Type) where
  finalized_nodes : List Node
  unvisited_frontier : List (Node × Nat × Option Node)
  visited_trace : List (Node × Nat × Option Node)

namespace DijkstraState

/-- The node components of the frontier (the `HashMap` key set). -/
def frontierKeys {Node : Type} (s : DijkstraState Node) : List Node :=
  s.unvisited_frontier.map (fun e => e.1)

end DijkstraState

/-- `unvisited_frontier.iter().min_by(|a, b| a.1.0.cmp(&b.1.0))`: an entry
with minimal tentative distance (`none` on an empty frontier). -/
def minFrontierEntry {Node : Type} :
    List (Node × Nat × Option Node) → Option (Node × Nat × Option Node)
  | [] => none
  | e :: es =>
    match minFrontierEntry es with
    | none => some e
    | some m => if e.2.1 ≤ m.2.1 then some e else some m

/-- One iteration of the neighbor loop for `(next_node, dist) = nb`:
skip finalized nodes, compute `path_total_distance = dist + current_distance`,
relax an existing frontier entry when strictly smaller, insert otherwise. -/
def relaxNeighbor {Node : Type} [DecidableEq Node] (finalized : List Node)
    (current : Node) (current_distance : Nat)
    (frontier : List (Node × Nat × Option Node)) (nb : Node × Nat) :
    List (Node × Nat × Option Node) :=
  if nb.1 ∈ finalized then frontier
  else
    if nb.1 ∈ frontier.map (fun e => e.1) then
      frontier.map (fun e =>
        if e.1 = nb.1 ∧ nb.2 + current_distance < e.2.1 then
          (e.1, nb.2 + current_distance, some current)
        else e)
    else frontier ++ [(nb.1, nb.2 + current_distance, some current)]

/-- `remove_entry`, `finalized_nodes.insert` and the
`mark_visited_distance` callback for the selected entry `e`. -/
def finalizeEntry {Node : Type} [DecidableEq Node] (s : DijkstraState Node)
    (e : Node × Nat × Option Node) : DijkstraState Node :=
  ⟨e.1 :: s.finalized_nodes,
    s.unvisited_frontier.filter (fun x => decide (x.1 ≠ e.1)),
    s.visited_trace ++ [e]⟩

/-- The whole neighbor loop of one iteration, run after `e` was finalized. -/
def relaxState {Node : Type} [DecidableEq Node] (c : DijkstraController Node)
    (s : DijkstraState Node) (e : Node × Nat × Option Node) :
    DijkstraState Node :=
  ⟨s.finalized_nodes,
    (c.get_neighbors_distances e.1).foldl
      (relaxNeighbor s.finalized_nodes e.1 e.2.1) s.unvisited_frontier,
    s.visited_trace⟩

/-- The `while !unvisited_frontier.is_empty()` loop, with explicit fuel
(`none` models running out of fuel and never happens with enough of it).
An empty frontier returns the `usize::MAX` sentinel; finalizing the target
returns its distance immediately. -/
def dijkstraLoop {Node : Type} [DecidableEq Node] (c : DijkstraController Node) :
    Nat → DijkstraState Node → Option (Nat × DijkstraState Node)
  | 0, _ => none
  | fuel + 1, s =>
    match minFrontierEntry s.unvisited_frontier with
    | none => some (usizeMax, s)
    | some e =>
      if e.1 = c.get_target_node then some (e.2.1, finalizeEntry s e)
      else dijkstraLoop c fuel (relaxState c (finalizeEntry s e) e)

/-- The initial state: `{start: (0, None)}` in the frontier, nothing
finalized, no callbacks yet. -/
def dijkstraInit {Node : Type} (c : DijkstraController Node) : DijkstraState Node :=
  ⟨[], [(c.get_starting_node, 0, none)], []⟩

/-- `dijkstra(controller)`: run the loop from the initial state.  Each
iteration finalizes one fresh node, so `card Node + 1` fuel always
suffices. -/
def dijkstra {Node : Type} [DecidableEq Node] [Fintype Node]
    (c : DijkstraController Node) : Option (Nat × DijkstraState Node) :=
  dijkstraLoop c (Fintype.card Node + 1) (dijkstraInit c)

/-- Paths in the implicit graph whose edges are exactly the
`(neighbor, weight)` pairs the controller reports, with their cumulative
weight. -/
inductive IsPath {Node : Type} (c : DijkstraController Node) :
    Node → Node → Nat → Prop
  | refl (a : Node) : IsPath c a a 0
  | tail {a b v : Node} {d w : Nat} : IsPath c a b d →
      (v, w) ∈ c.get_neighbors_distances b → IsPath c a v (d + w)

/-- `d` is the minimum cumulative edge weight over all paths from the
starting node to `v`. -/
def IsShortest {Node : Type} (c : DijkstraController Node) (v : Node)
    (d : Nat) : Prop :=
  IsPath c c.get_starting_node v d ∧
    ∀ d', IsPath c c.get_starting_node v d' → d ≤ d'

/-! ### Frontier-minimum selection -/

theorem minFrontierEntry_eq_none {Node : Type}
    (l : List (Node × Nat × Option Node)) :
    minFrontierEntry l = none ↔ l = [] := by
  cases l with
  | nil => simp [minFrontierEntry]
  | cons e es =>
    cases h : minFrontierEntry es with
    | none => simp [minFrontierEntry, h]
    | some m =>
      simp only [minFrontierEntry, h]
      constructor
      · intro hc
        split at hc <;> cases hc
      · intro hc
        cases hc

theorem minFrontierEntry_mem {Node : Type} :
    ∀ (l : List (Node × Nat × Option Node)) (m : Node × Nat × Option Node),
      minFrontierEntry l = some m → m ∈ l := by
  intro l
  induction l with
  | nil => intro m h; cases h
  | cons e es ih =>
    intro m h
    cases h2 : minFrontierEntry es with
    | none =>
      simp only [minFrontierEntry, h2, Option.some.injEq] at h
      subst h
      exact List.mem_cons_self e es
    | some m2 =>
      simp only [minFrontierEntry, h2] at h
      by_cases hle : e.2.1 ≤ m2.2.1
      · rw [if_pos hle] at h
        simp only [Option.some.injEq] at h
        subst h
        exact List.mem_cons_self e es
      · rw [if_neg hle] at h
        simp only [Option.some.injEq] at h
        subst h
        exact List.mem_cons_of_mem e (ih m2 h2)

theorem minFrontierEntry_min {Node : Type} :
    ∀ (l : List (Node × Nat × Option Node)) (m : Node × Nat × Option Node),
      minFrontierEntry l = some m → ∀ e ∈ l, m.2.1 ≤ e.2.1 := by
  intro l
  induction l with
  | nil => intro m h; cases h
  | cons e es ih =>
    intro m h e' he'
    cases h2 : minFrontierEntry es with
    | none =>
      have hes : es = [] := (minFrontierEntry_eq_none es).mp h2
      subst hes
      simp only [minFrontierEntry, Option.some.injEq] at h
      subst h
      simp only [List.mem_singleton] at he'
      subst he'
      exact Nat.le_refl _
    | some m2 =>
      simp only [minFrontierEntry, h2] at h
      by_cases hle : e.2.1 ≤ m2.2.1
      · rw [if_pos hle] at h
        simp only [Option.some.injEq] at h
        subst h
        rcases List.mem_cons.mp he' with rfl | hmem
        · exact Nat.le_refl _
        · exact Nat.le_trans hle (ih m2 h2 e' hmem)
      · rw [if_neg hle] at h
        simp only [Option.some.injEq] at h
        subst h
        rcases List.mem_cons.mp he' with rfl | hmem
        · omega
        · exact ih m2 h2 e' hmem

/-! ### Neighbor relaxation -/

theorem relaxNeighbor_keys {Node : Type} [DecidableEq Node] (fin : List Node)
    (cur : Node) (d : Nat) (fr : List (Node × Nat × Option Node))
    (nb : Node × Nat) :
    ((relaxNeighbor fin cur d fr nb).map (fun e => e.1) =
      fr.map (fun e => e.1)) ∨
    (nb.1 ∉ fr.map (fun e : Node × Nat × Option Node => e.1) ∧ nb.1 ∉ fin ∧
      (relaxNeighbor fin cur d fr nb).map (fun e => e.1) =
        fr.map (fun e => e.1) ++ [nb.1]) := by
  unfold relaxNeighbor
  split_ifs with h1 h2
  · exact Or.inl rfl
  · left
    rw [List.map_map]
    apply List.map_eq_map_iff.mpr
    intro e _
    show (if e.1 = nb.1 ∧ nb.2 + d < e.2.1 then (e.1, nb.2 + d, some cur) else e).1 = e.1
    split <;> rfl
  · right
    exact ⟨h2, h1, by simp⟩

theorem relaxNeighbor_monotone {Node : Type} [DecidableEq Node]
    (fin : List Node) (cur : Node) (d : Nat)
    (fr : List (Node × Nat × Option Node)) (nb : Node × Nat) :
    ∀ e ∈ fr, ∃ e' ∈ relaxNeighbor fin cur d fr nb,
      e'.1 = e.1 ∧ e'.2.1 ≤ e.2.1 := by
  intro e he
  unfold relaxNeighbor
  split_ifs with h1 h2
  · exact ⟨e, he, rfl, Nat.le_refl _⟩
  · refine ⟨if e.1 = nb.1 ∧ nb.2 + d < e.2.1 then (e.1, nb.2 + d, some cur) else e,
      List.mem_map_of_mem _ he, ?_⟩
    by_cases h3 : e.1 = nb.1 ∧ nb.2 + d < e.2.1
    · rw [if_pos h3]
      exact ⟨rfl, Nat.le_of_lt h3.2⟩
    · rw [if_neg h3]
      exact ⟨rfl, Nat.le_refl _⟩
  · exact ⟨e, List.mem_append_left _ he, rfl, Nat.le_refl _⟩

theorem relaxNeighbor_provenance {Node : Type} [DecidableEq Node]
    (fin : List Node) (cur : Node) (d : Nat)
    (fr : List (Node × Nat × Option Node)) (nb : Node × Nat) :
    ∀ e' ∈ relaxNeighbor fin cur d fr nb, e' ∈ fr ∨
      (e'.1 = nb.1 ∧ e'.2.1 = nb.2 + d ∧ e'.2.2 = some cur ∧ nb.1 ∉ fin) := by
  intro e' he'
  unfold relaxNeighbor at he'
  split_ifs at he' with h1 h2
  · exact Or.inl he'
  · rcases List.mem_map.mp he' with ⟨e, he, hupd⟩
    by_cases h3 : e.1 = nb.1 ∧ nb.2 + d < e.2.1
    · rw [if_pos h3] at hupd
      subst hupd
      exact Or.inr ⟨h3.1, rfl, rfl, h1⟩
    · rw [if_neg h3] at hupd
      subst hupd
      exact Or.inl he
  · rcases List.mem_append.mp he' with h | h
    · exact Or.inl h
    · simp only [List.mem_singleton] at h
      subst h
      exact Or.inr ⟨rfl, rfl, rfl, h1⟩

theorem relaxNeighbor_achieves {Node : Type} [DecidableEq Node]
    (fin : List Node) (cur : Node) (d : Nat)
    (fr : List (Node × Nat × Option Node)) (nb : Node × Nat)
    (hnotfin : nb.1 ∉ fin) :
    ∃ e' ∈ relaxNeighbor fin cur d fr nb, e'.1 = nb.1 ∧ e'.2.1 ≤ nb.2 + d := by
  unfold relaxNeighbor
  rw [if_neg hnotfin]
  by_cases h2 : nb.1 ∈ fr.map (fun e : Node × Nat × Option Node => e.1)
  · rw [if_pos h2]
    rcases List.mem_map.mp h2 with ⟨e, he, hkey⟩
    refine ⟨if e.1 = nb.1 ∧ nb.2 + d < e.2.1 then (e.1, nb.2 + d, some cur) else e,
      List.mem_map_of_mem _ he, ?_⟩
    by_cases h3 : e.1 = nb.1 ∧ nb.2 + d < e.2.1
    · rw [if_pos h3]
      exact ⟨hkey, Nat.le_refl _⟩
    · rw [if_neg h3]
      refine ⟨hkey, ?_⟩
      have hnlt : ¬ nb.2 + d < e.2.1 := fun hc => h3 ⟨hkey, hc⟩
      omega
  · rw [if_neg h2]
    exact ⟨(nb.1, nb.2 + d, some cur), List.mem_append_right _ (by simp), rfl,
      Nat.le_refl _⟩

/-! ### The whole neighbor loop (fold of `relaxNeighbor`) -/

theorem relaxFold_keys_nodup {Node : Type} [DecidableEq Node] (fin : List Node)
    (cur : Node) (d : Nat) :
    ∀ (nbs : List (Node × Nat)) (fr : List (Node × Nat × Option Node)),
      (fr.map (fun e => e.1)).Nodup →
      ((nbs.foldl (relaxNeighbor fin cur d) fr).map (fun e => e.1)).Nodup := by
  intro nbs
  induction nbs with
  | nil => intro fr h; exact h
  | cons nb rest ih =>
    intro fr h
    simp only [List.foldl_cons]
    apply ih
    rcases relaxNeighbor_keys fin cur d fr nb with heq | ⟨hnk, _, heq⟩
    · rw [heq]; exact h
    · rw [heq]
      refine List.Nodup.append h (List.nodup_singleton _) ?_
      intro a ha hb
      simp only [List.mem_singleton] at hb
      subst hb
      exact hnk ha

theorem relaxFold_disjoint {Node : Type} [DecidableEq Node] (fin : List Node)
    (cur : Node) (d : Nat) :
    ∀ (nbs : List (Node × Nat)) (fr : List (Node × Nat × Option Node)),
      (∀ e ∈ fr, e.1 ∉ fin) →
      ∀ e ∈ nbs.foldl (relaxNeighbor fin cur d) fr, e.1 ∉ fin := by
  intro nbs
  induction nbs with
  | nil => intro fr h; exact h
  | cons nb rest ih =>
    intro fr h
    simp only [List.foldl_cons]
    apply ih
    intro e he
    rcases relaxNeighbor_provenance fin cur d fr nb e he with hold | ⟨hk, _, _, hnf⟩
    · exact h e hold
    · rw [hk]; exact hnf

theorem relaxFold_monotone {Node : Type} [DecidableEq Node] (fin : List Node)
    (cur : Node) (d : Nat) :
    ∀ (nbs : List (Node × Nat)) (fr : List (Node × Nat × Option Node)),
      ∀ e ∈ fr, ∃ e' ∈ nbs.foldl (relaxNeighbor fin cur d) fr,
        e'.1 = e.1 ∧ e'.2.1 ≤ e.2.1 := by
  intro nbs
  induction nbs with
  | nil => intro fr e he; exact ⟨e, he, rfl, Nat.le_refl _⟩
  | cons nb rest ih =>
    intro fr e he
    simp only [List.foldl_cons]
    rcases relaxNeighbor_monotone fin cur d fr nb e he with ⟨e1, he1, hk1, hd1⟩
    rcases ih (relaxNeighbor fin cur d fr nb) e1 he1 with ⟨e', he', hk', hd'⟩
    exact ⟨e', he', by rw [hk', hk1], Nat.le_trans hd' hd1⟩

theorem relaxFold_provenance {Node : Type} [DecidableEq Node] (fin : List Node)
    (cur : Node) (d : Nat) :
    ∀ (nbs : List (Node × Nat)) (fr : List (Node × Nat × Option Node)),
      ∀ e' ∈ nbs.foldl (relaxNeighbor fin cur d) fr, e' ∈ fr ∨
        ∃ nb ∈ nbs, e'.1 = nb.1 ∧ e'.2.1 = nb.2 + d ∧ e'.2.2 = some cur ∧
          nb.1 ∉ fin := by
  intro nbs
  induction nbs with
  | nil => intro fr e' he'; exact Or.inl he'
  | cons nb rest ih =>
    intro fr e' he'
    simp only [List.foldl_cons] at he'
    rcases ih (relaxNeighbor fin cur d fr nb) e' he' with h | ⟨nb', hnb', hrest⟩
    · rcases relaxNeighbor_provenance fin cur d fr nb e' h with hold | hnew
      · exact Or.inl hold
      · exact Or.inr ⟨nb, by simp, hnew⟩
    · exact Or.inr ⟨nb', List.mem_cons_of_mem nb hnb', hrest⟩

theorem relaxFold_achieves {Node : Type} [DecidableEq Node] (fin : List Node)
    (cur : Node) (d : Nat) :
    ∀ (nbs : List (Node × Nat)) (fr : List (Node × Nat × Option Node)),
      ∀ nb ∈ nbs, nb.1 ∉ fin →
      ∃ e' ∈ nbs.foldl (relaxNeighbor fin cur d) fr,
        e'.1 = nb.1 ∧ e'.2.1 ≤ nb.2 + d := by
  intro nbs
  induction nbs with
  | nil =>
    intro fr nb hnb
    simp at hnb
  | cons nb0 rest ih =>
    intro fr nb hnb hnf
    simp only [List.foldl_cons]
    rcases List.mem_cons.mp hnb with rfl | hmem
    · rcases relaxNeighbor_achieves fin cur d fr nb hnf with ⟨e1, he1, hk1, hd1⟩
      rcases relaxFold_monotone fin cur d rest (relaxNeighbor fin cur d fr nb) e1 he1 with
        ⟨e', he', hk', hd'⟩
      exact ⟨e', he', by rw [hk', hk1], Nat.le_trans hd' hd1⟩
    · exact ih (relaxNeighbor fin cur d fr nb0) nb hmem hnf

/-! ### Loop invariant -/

/-- The loop-head invariant.  Finalized nodes are exactly the traced ones and
each was finalized once, at its true shortest distance; frontier keys are
unique, disjoint from the finalized set, and every tentative distance is the
cost of an actual path; the start is finalized or still pending at distance
0; and every edge leaving the finalized region is covered by a frontier
entry at least as good. -/
structure DijkstraInv {Node : Type} (c : DijkstraController Node)
    (s : DijkstraState Node) : Prop where
  fin_eq : s.finalized_nodes = (s.visited_trace.map (fun e => e.1)).reverse
  fin_nodup : s.finalized_nodes.Nodup
  keys_nodup : (s.unvisited_frontier.map (fun e => e.1)).Nodup
  disjoint : ∀ e ∈ s.unvisited_frontier, e.1 ∉ s.finalized_nodes
  trace_shortest : ∀ e ∈ s.visited_trace, IsShortest c e.1 e.2.1
  frontier_path : ∀ e ∈ s.unvisited_frontier, IsPath c c.get_starting_node e.1 e.2.1
  start_mem : c.get_starting_node ∈ s.finalized_nodes ∨
    ∃ p, (c.get_starting_node, 0, p) ∈ s.unvisited_frontier
  coverage : ∀ e ∈ s.visited_trace, ∀ nb ∈ c.get_neighbors_distances e.1,
    nb.1 ∉ s.finalized_nodes →
    ∃ e' ∈ s.unvisited_frontier, e'.1 = nb.1 ∧ e'.2.1 ≤ nb.2 + e.2.1

theorem DijkstraInv.mem_finalized {Node : Type} {c : DijkstraController Node}
    {s : DijkstraState Node} (inv : DijkstraInv c s) {v : Node} :
    v ∈ s.finalized_nodes ↔ ∃ e ∈ s.visited_trace, e.1 = v := by
  rw [inv.fin_eq]
  simp

theorem dijkstraInit_inv {Node : Type} (c : DijkstraController Node) :
    DijkstraInv c (dijkstraInit c) := by
  refine ⟨rfl, by simp [dijkstraInit], by simp [dijkstraInit], ?_, ?_, ?_, ?_, ?_⟩
  · intro e _
    simp [dijkstraInit]
  · intro e he
    simp [dijkstraInit] at he
  · intro e he
    simp only [dijkstraInit, List.mem_singleton] at he
    subst he
    exact IsPath.refl _
  · exact Or.inr ⟨none, by simp [dijkstraInit]⟩
  · intro e he
    simp [dijkstraInit] at he

/-- On any path from the start to a not-yet-finalized node, the cost is at
least the minimum tentative distance of the frontier: the path must cross
from the finalized region into the frontier. -/
theorem reach_bound {Node : Type} {c : DijkstraController Node}
    {s : DijkstraState Node} (inv : DijkstraInv c s) (d : Nat)
    (hmin : ∀ e ∈ s.unvisited_frontier, d ≤ e.2.1) :
    ∀ v cost, IsPath c c.get_starting_node v cost →
      v ∉ s.finalized_nodes → d ≤ cost := by
  intro v cost hp
  induction hp with
  | refl =>
    intro hnf
    rcases inv.start_mem with hin | ⟨p, hfr⟩
    · exact absurd hin hnf
    · exact hmin _ hfr
  | @tail b v2 dbp w hp2 hedge ih =>
    intro hnf
    by_cases hb : b ∈ s.finalized_nodes
    · rcases inv.mem_finalized.mp hb with ⟨x, hx, hkey⟩
      have hshort := inv.trace_shortest x hx
      have hle : x.2.1 ≤ dbp := hshort.2 _ (by rw [hkey]; exact hp2)
      rcases inv.coverage x hx (v2, w) (by rw [hkey]; exact hedge) hnf with
        ⟨e', he', hk', hd'⟩
      have hmind := hmin e' he'
      simp only at hd'
      omega
    · have := ih hb
      omega

/-- The frontier entry with minimal tentative distance carries the true
shortest distance of its node. -/
theorem min_is_shortest {Node : Type} {c : DijkstraController Node}
    {s : DijkstraState Node} (inv : DijkstraInv c s)
    {m : Node × Nat × Option Node}
    (hm : minFrontierEntry s.unvisited_frontier = some m) :
    IsShortest c m.1 m.2.1 := by
  have hmem := minFrontierEntry_mem _ m hm
  refine ⟨inv.frontier_path m hmem, ?_⟩
  intro d' hp
  exact reach_bound inv m.2.1 (minFrontierEntry_min _ m hm) m.1 d' hp
    (inv.disjoint m hmem)

theorem finalize_mem_frontier_filter {Node : Type} [DecidableEq Node]
    {s : DijkstraState Node} {e : Node × Nat × Option Node}
    (x : Node × Nat × Option Node) :
    x ∈ (finalizeEntry s e).unvisited_frontier ↔
      x ∈ s.unvisited_frontier ∧ x.1 ≠ e.1 := by
  simp [finalizeEntry, List.mem_filter]

/-- One non-target loop iteration (finalize the closest frontier entry, then
relax its neighbors) preserves the invariant. -/
theorem step_inv {Node : Type} [DecidableEq Node] {c : DijkstraController Node}
    {s : DijkstraState Node} (inv : DijkstraInv c s)
    {e : Node × Nat × Option Node}
    (hm : minFrontierEntry s.unvisited_frontier = some e) :
    DijkstraInv c (relaxState c (finalizeEntry s e) e) := by
  have hmem := minFrontierEntry_mem _ e hm
  have hshort := min_is_shortest inv hm
  have henf : e.1 ∉ s.finalized_nodes := inv.disjoint e hmem
  have hkeys' : ((finalizeEntry s e).unvisited_frontier.map (fun x => x.1)).Nodup := by
    refine List.Nodup.sublist (List.Sublist.map _ ?_) inv.keys_nodup
    exact List.filter_sublist _
  refine ⟨?_, ?_, ?_, ?_, ?_, ?_, ?_, ?_⟩
  · show e.1 :: s.finalized_nodes =
      ((s.visited_trace ++ [e]).map (fun x => x.1)).reverse
    rw [inv.fin_eq]
    simp
  · exact List.nodup_cons.mpr ⟨henf, inv.fin_nodup⟩
  · exact relaxFold_keys_nodup _ _ _ _ _ hkeys'
  · apply relaxFold_disjoint
    intro x hx
    rcases (finalize_mem_frontier_filter x).mp hx with ⟨hxs, hxne⟩
    intro hc
    rcases List.mem_cons.mp hc with h | h
    · exact hxne h
    · exact inv.disjoint x hxs h
  · intro x hx
    rcases List.mem_append.mp hx with h | h
    · exact inv.trace_shortest x h
    · simp only [List.mem_singleton] at h
      subst h
      exact hshort
  · intro x hx
    rcases relaxFold_provenance _ _ _ _ _ x hx with h | ⟨nb, hnb, hk, hd, _, _⟩
    · exact inv.frontier_path x ((finalize_mem_frontier_filter x).mp h).1
    · have hpath : IsPath c c.get_starting_node nb.1 (e.2.1 + nb.2) :=
        IsPath.tail (inv.frontier_path e hmem) (by simpa using hnb)
      rw [hk, hd, Nat.add_comm]
      exact hpath
  · rcases inv.start_mem with hin | ⟨p, hfr⟩
    · exact Or.inl (List.mem_cons_of_mem _ hin)
    · by_cases hse : c.get_starting_node = e.1
      · exact Or.inl (by rw [hse]; exact List.mem_cons_self _ _)
      · have hfr' : (c.get_starting_node, (0 : Nat), p) ∈
            (finalizeEntry s e).unvisited_frontier :=
          (finalize_mem_frontier_filter _).mpr ⟨hfr, hse⟩
        rcases relaxFold_monotone (finalizeEntry s e).finalized_nodes e.1 e.2.1
            (c.get_neighbors_distances e.1) (finalizeEntry s e).unvisited_frontier
            (c.get_starting_node, 0, p) hfr' with ⟨⟨a, b, q⟩, he', hk', hd'⟩
        simp only at hk' hd'
        subst hk'
        have hb : b = 0 := by omega
        subst hb
        exact Or.inr ⟨q, he'⟩
  · intro x hx nb hnb hnf
    have hnbne : nb.1 ≠ e.1 := fun hc => hnf (by rw [hc]; exact List.mem_cons_self _ _)
    have hnbfin : nb.1 ∉ (finalizeEntry s e).finalized_nodes := hnf
    rcases List.mem_append.mp hx with h | h
    · have hnfold : nb.1 ∉ s.finalized_nodes := fun hc =>
        hnf (List.mem_cons_of_mem _ hc)
      rcases inv.coverage x h nb hnb hnfold with ⟨e', he', hk', hd'⟩
      have hfr' : e' ∈ (finalizeEntry s e).unvisited_frontier :=
        (finalize_mem_frontier_filter e').mpr ⟨he', by rw [hk']; exact hnbne⟩
      rcases relaxFold_monotone (finalizeEntry s e).finalized_nodes e.1 e.2.1
          (c.get_neighbors_distances e.1) _ e' hfr' with ⟨e'', he'', hk'', hd''⟩
      exact ⟨e'', he'', by rw [hk'', hk'], by omega⟩
    · simp only [List.mem_singleton] at h
      subst h
      exact relaxFold_achieves _ _ _ _ _ nb hnb hnbfin

/-- The facts about a state that survive to the function's return value:
each `mark_visited_distance` call delivered a true shortest distance, and
the finalized set is exactly the set of traced nodes, without repetition. -/
def TraceOK {Node : Type} (c : DijkstraController Node)
    (s : DijkstraState Node) : Prop :=
  (∀ x ∈ s.visited_trace, IsShortest c x.1 x.2.1) ∧
  s.finalized_nodes = (s.visited_trace.map (fun e => e.1)).reverse ∧
  s.finalized_nodes.Nodup

/-- Finalizing the minimal entry (with or without the subsequent neighbor
relaxation) keeps the trace facts. -/
theorem finalize_traceOK {Node : Type} [DecidableEq Node]
    {c : DijkstraController Node} {s : DijkstraState Node}
    (inv : DijkstraInv c s) {e : Node × Nat × Option Node}
    (hm : minFrontierEntry s.unvisited_frontier = some e) :
    TraceOK c (finalizeEntry s e) := by
  have hmem := minFrontierEntry_mem _ e hm
  refine ⟨?_, ?_, ?_⟩
  · intro x hx
    rcases List.mem_append.mp hx with h | h
    · exact inv.trace_shortest x h
    · simp only [List.mem_singleton] at h
      subst h
      exact min_is_shortest inv hm
  · show e.1 :: s.finalized_nodes =
      ((s.visited_trace ++ [e]).map (fun x => x.1)).reverse
    rw [inv.fin_eq]
    simp
  · exact List.nodup_cons.mpr ⟨inv.disjoint e hmem, inv.fin_nodup⟩

/-- When the frontier has emptied, every node reachable from the start has
been finalized. -/
theorem frontier_empty_all_finalized {Node : Type} {c : DijkstraController Node}
    {s : DijkstraState Node} (inv : DijkstraInv c s)
    (hempty : s.unvisited_frontier = []) :
    ∀ v cost, IsPath c c.get_starting_node v cost → v ∈ s.finalized_nodes := by
  intro v cost hp
  induction hp with
  | refl =>
    rcases inv.start_mem with h | ⟨p, hfr⟩
    · exact h
    · rw [hempty] at hfr
      simp at hfr
  | @tail b v2 dbp w hp2 hedge ih =>
    by_contra hnf
    rcases inv.mem_finalized.mp ih with ⟨x, hx, hkey⟩
    rcases inv.coverage x hx (v2, w) (by rw [hkey]; exact hedge) hnf with
      ⟨e', he', _, _⟩
    rw [hempty] at he'
    simp at he'

/-- The loop, run with enough fuel from an invariant state in which the
target is not yet finalized, returns: either the target was finalized at the
returned distance, or the frontier emptied and the `usize::MAX` sentinel is
returned. -/
theorem dijkstraLoop_spec {Node : Type} [DecidableEq Node] [Fintype Node]
    (c : DijkstraController Node) :
    ∀ (fuel : Nat) (s : DijkstraState Node), DijkstraInv c s →
      c.get_target_node ∉ s.finalized_nodes →
      Fintype.card Node + 1 ≤ fuel + s.finalized_nodes.length →
      ∃ r st, dijkstraLoop c fuel s = some (r, st) ∧ TraceOK c st ∧
        ((∃ p, (c.get_target_node, r, p) ∈ st.visited_trace) ∨
         (r = usizeMax ∧ DijkstraInv c st ∧ st.unvisited_frontier = [] ∧
           c.get_target_node ∉ st.finalized_nodes)) := by
  intro fuel
  induction fuel with
  | zero =>
    intro s inv htgt hfuel
    have hlen := inv.fin_nodup.length_le_card
    omega
  | succ fuel ih =>
    intro s inv htgt hfuel
    cases hm : minFrontierEntry s.unvisited_frontier with
    | none =>
      have hempty := (minFrontierEntry_eq_none _).mp hm
      refine ⟨usizeMax, s, ?_, ⟨inv.trace_shortest, inv.fin_eq, inv.fin_nodup⟩,
        Or.inr ⟨rfl, inv, hempty, htgt⟩⟩
      simp [dijkstraLoop, hm]
    | some e =>
      by_cases htarget : e.1 = c.get_target_node
      · refine ⟨e.2.1, finalizeEntry s e, ?_, finalize_traceOK inv hm, ?_⟩
        · simp [dijkstraLoop, hm, htarget]
        · left
          refine ⟨e.2.2, ?_⟩
          show (c.get_target_node, e.2.1, e.2.2) ∈ s.visited_trace ++ [e]
          apply List.mem_append_right
          simp [← htarget]
      · have inv' := step_inv inv hm
        have htgt' : c.get_target_node ∉
            (relaxState c (finalizeEntry s e) e).finalized_nodes := by
          show c.get_target_node ∉ e.1 :: s.finalized_nodes
          intro hc
          rcases List.mem_cons.mp hc with h | h
          · exact htarget h.symm
          · exact htgt h
        have hfuel' : Fintype.card Node + 1 ≤
            fuel + (relaxState c (finalizeEntry s e) e).finalized_nodes.length := by
          show _ ≤ fuel + (e.1 :: s.finalized_nodes).length
          simp only [List.length_cons]
          omega
        rcases ih _ inv' htgt' hfuel' with ⟨r, st, hrun, htr, hdisj⟩
        refine ⟨r, st, ?_, htr, hdisj⟩
        show dijkstraLoop c (fuel + 1) s = some (r, st)
        simp only [dijkstraLoop, hm]
        rw [if_neg htarget]
        exact hrun

/-! ### The claims about the engine -/

/-- C1: for every controller (non-negative weights are built into the `Nat`
weight type) whose target is reachable from the start, `dijkstra` returns
the minimum cumulative edge weight over all paths from start to target, and
every `mark_visited_distance` notification delivered a node's true shortest
distance. -/
theorem dijkstra_spec {Node : Type} [DecidableEq Node] [Fintype Node]
    (c : DijkstraController Node)
    (hreach : ∃ cost, IsPath c c.get_starting_node c.get_target_node cost) :
    ∃ r st, dijkstra c = some (r, st) ∧ IsShortest c c.get_target_node r ∧
      ∀ x ∈ st.visited_trace, IsShortest c x.1 x.2.1 := by
  rcases dijkstraLoop_spec c (Fintype.card Node + 1) (dijkstraInit c)
      (dijkstraInit_inv c) (by simp [dijkstraInit]) (by simp [dijkstraInit]) with
    ⟨r, st, hrun, ⟨htr, hfe, hnd⟩, hdisj⟩
  refine ⟨r, st, hrun, ?_, htr⟩
  rcases hdisj with ⟨p, hmem⟩ | ⟨hmax, inv', hempty, htgtnf⟩
  · exact htr _ hmem
  · exfalso
    rcases hreach with ⟨cost, hp⟩
    exact htgtnf (frontier_empty_all_finalized inv' hempty _ cost hp)

/-- C4: when the target is unreachable the loop exhausts the frontier and
returns the `usize::MAX` sentinel as a normal value. -/
theorem dijkstra_unreachable {Node : Type} [DecidableEq Node] [Fintype Node]
    (c : DijkstraController Node)
    (hunreach : ¬ ∃ cost, IsPath c c.get_starting_node c.get_target_node cost) :
    ∃ st, dijkstra c = some (usizeMax, st) := by
  rcases dijkstraLoop_spec c (Fintype.card Node + 1) (dijkstraInit c)
      (dijkstraInit_inv c) (by simp [dijkstraInit]) (by simp [dijkstraInit]) with
    ⟨r, st, hrun, ⟨htr, hfe, hnd⟩, hdisj⟩
  rcases hdisj with ⟨p, hmem⟩ | ⟨hmax, _, _, _⟩
  · exact absurd ⟨r, (htr _ hmem).1⟩ hunreach
  · subst hmax
    exact ⟨st, hrun⟩

/-- C5: `dijkstra` always terminates with a result; each node is finalized
at most once; a zero-weight edge between two traced nodes never increases
the reported distance; and the run ends by finalizing the target or by
emptying the frontier. -/
theorem dijkstra_terminates {Node : Type} [DecidableEq Node] [Fintype Node]
    (c : DijkstraController Node) :
    ∃ r st, dijkstra c = some (r, st) ∧ st.finalized_nodes.Nodup ∧
      (∀ u ∈ st.visited_trace, ∀ v ∈ st.visited_trace,
        (v.1, 0) ∈ c.get_neighbors_distances u.1 → v.2.1 ≤ u.2.1) ∧
      ((∃ p, (c.get_target_node, r, p) ∈ st.visited_trace) ∨
        (r = usizeMax ∧ st.unvisited_frontier = [])) := by
  rcases dijkstraLoop_spec c (Fintype.card Node + 1) (dijkstraInit c)
      (dijkstraInit_inv c) (by simp [dijkstraInit]) (by simp [dijkstraInit]) with
    ⟨r, st, hrun, ⟨htr, hfe, hnd⟩, hdisj⟩
  refine ⟨r, st, hrun, hnd, ?_, ?_⟩
  · intro u hu v hv hedge
    have hu' := htr u hu
    have hv' := htr v hv
    have hpath : IsPath c c.get_starting_node v.1 (u.2.1 + 0) :=
      IsPath.tail hu'.1 hedge
    have := hv'.2 _ hpath
    omega
  · rcases hdisj with h | ⟨hmax, _, hempty, _⟩
    · exact Or.inl h
    · exact Or.inr ⟨hmax, hempty⟩

/-- The states the loop head can actually be in: the initial state and the
result of any number of non-target iterations. -/
inductive DijkstraReach {Node : Type} [DecidableEq Node]
    (c : DijkstraController Node) : DijkstraState Node → Prop
  | init : DijkstraReach c (dijkstraInit c)
  | step {s : DijkstraState Node} {e : Node × Nat × Option Node} :
      DijkstraReach c s → minFrontierEntry s.unvisited_frontier = some e →
      e.1 ≠ c.get_target_node →
      DijkstraReach c (relaxState c (finalizeEntry s e) e)

theorem reach_inv {Node : Type} [DecidableEq Node] {c : DijkstraController Node}
    {s : DijkstraState Node} (h : DijkstraReach c s) : DijkstraInv c s := by
  induction h with
  | init => exact dijkstraInit_inv c
  | step hreach hm htgt ih => exact step_inv ih hm

/-- C7: at every loop head a node is in at most one of the frontier and the
finalized set (both duplicate-free); finalizing the selected minimal entry
(with or without the subsequent relaxation) only grows the finalized set and
appends exactly one `mark_visited_distance` record — the removed frontier
entry, with its distance and optional predecessor — for a node never traced
before and finalized from then on. -/
theorem dijkstra_step_invariants {Node : Type} [DecidableEq Node]
    (c : DijkstraController Node) (s : DijkstraState Node)
    (hs : DijkstraReach c s) :
    (∀ e ∈ s.unvisited_frontier, e.1 ∉ s.finalized_nodes) ∧
    s.finalized_nodes.Nodup ∧
    (s.unvisited_frontier.map (fun e => e.1)).Nodup ∧
    (∀ e, minFrontierEntry s.unvisited_frontier = some e →
      s.finalized_nodes ⊆ (finalizeEntry s e).finalized_nodes ∧
      s.finalized_nodes ⊆ (relaxState c (finalizeEntry s e) e).finalized_nodes ∧
      (finalizeEntry s e).visited_trace = s.visited_trace ++ [e] ∧
      (relaxState c (finalizeEntry s e) e).visited_trace = s.visited_trace ++ [e] ∧
      e.1 ∉ s.visited_trace.map (fun x => x.1) ∧
      e.1 ∈ (finalizeEntry s e).finalized_nodes) := by
  have inv := reach_inv hs
  refine ⟨inv.disjoint, inv.fin_nodup, inv.keys_nodup, ?_⟩
  intro e hm
  have hmem := minFrontierEntry_mem _ e hm
  have henf := inv.disjoint e hmem
  refine ⟨?_, ?_, rfl, rfl, ?_, List.mem_cons_self _ _⟩
  · intro a ha
    exact List.mem_cons_of_mem _ ha
  · intro a ha
    exact List.mem_cons_of_mem _ ha
  · intro hc
    apply henf
    rw [inv.fin_eq]
    simpa using hc

/-! ### Concrete controllers for the witnesses -/

/-- The spec's 5-node example graph (the repository's own test graph with
its back edges). -/
def exNeighbors : Nat → List (Fin 5 × Nat)
  | 0 => [(1, 1), (2, 10)]
  | 1 => [(0, 1), (2, 10), (3, 5)]
  | 2 => [(1, 11), (4, 1)]
  | 3 => [(4, 6)]
  | _ => []

def exampleController : DijkstraController (Fin 5) :=
  ⟨0, 4, fun n => exNeighbors n.val⟩

/-- Two isolated nodes: the target is never anyone's neighbor. -/
def unreachController : DijkstraController (Fin 2) := ⟨0, 1, fun _ => []⟩

/-- A zero-weight edge between the two distinct nodes 0 and 1. -/
def zeroNeighbors : Nat → List (Fin 3 × Nat)
  | 0 => [(1, 0)]
  | 1 => [(2, 5)]
  | _ => []

def zeroEdgeController : DijkstraController (Fin 3) :=
  ⟨0, 2, fun n => zeroNeighbors n.val⟩

theorem isPath_no_edges {Node : Type} (c : DijkstraController Node)
    (hemp : ∀ v, c.get_neighbors_distances v = []) :
    ∀ a b cost, IsPath c a b cost → b = a := by
  intro a b cost h
  induction h with
  | refl => rfl
  | tail hp hmem ih =>
    rw [hemp] at hmem
    simp at hmem

theorem dijkstra_spec_witness :
    (∃ cost, IsPath exampleController exampleController.get_starting_node
      exampleController.get_target_node cost) ∧
    (∃ r st, dijkstra exampleController = some (r, st) ∧
      IsShortest exampleController exampleController.get_target_node r ∧
      ∀ x ∈ st.visited_trace, IsShortest exampleController x.1 x.2.1) ∧
    (dijkstra exampleController).map Prod.fst = some 11 ∧
    (dijkstra exampleController).map
        (fun rs => rs.2.visited_trace.map (fun x => (x.1, x.2.1))) =
      some [(0, 0), (1, 1), (3, 6), (2, 10), (4, 11)] := by
  have h1 : IsPath exampleController exampleController.get_starting_node 2 (0 + 10) :=
    IsPath.tail (IsPath.refl exampleController.get_starting_node) (by decide)
  have hm2 : ((4 : Fin 5), 1) ∈ exampleController.get_neighbors_distances 2 := by
    decide
  have hpath : IsPath exampleController exampleController.get_starting_node
      exampleController.get_target_node 11 := IsPath.tail h1 hm2
  exact ⟨⟨11, hpath⟩, dijkstra_spec exampleController ⟨11, hpath⟩, by decide, by decide⟩

theorem dijkstra_unreachable_witness :
    (¬ ∃ cost, IsPath unreachController unreachController.get_starting_node
      unreachController.get_target_node cost) ∧
    (∃ st, dijkstra unreachController = some (usizeMax, st)) := by
  have hno : ¬ ∃ cost, IsPath unreachController unreachController.get_starting_node
      unreachController.get_target_node cost := by
    rintro ⟨cost, hp⟩
    have heq := isPath_no_edges unreachController (fun v => rfl) _ _ _ hp
    exact absurd heq (by decide)
  exact ⟨hno, dijkstra_unreachable unreachController hno⟩

theorem dijkstra_terminates_witness :
    (∃ r st, dijkstra zeroEdgeController = some (r, st) ∧
      st.finalized_nodes.Nodup ∧
      (∀ u ∈ st.visited_trace, ∀ v ∈ st.visited_trace,
        (v.1, 0) ∈ zeroEdgeController.get_neighbors_distances u.1 →
          v.2.1 ≤ u.2.1) ∧
      ((∃ p, (zeroEdgeController.get_target_node, r, p) ∈ st.visited_trace) ∨
        (r = usizeMax ∧ st.unvisited_frontier = []))) ∧
    (dijkstra zeroEdgeController).map Prod.fst = some 5 ∧
    (dijkstra zeroEdgeController).map
        (fun rs => rs.2.visited_trace.map (fun x => (x.1, x.2.1))) =
      some [(0, 0), (1, 0), (2, 5)] :=
  ⟨dijkstra_terminates zeroEdgeController, by decide, by decide⟩

theorem dijkstra_step_invariants_witness :
    DijkstraReach exampleController (dijkstraInit exampleController) ∧
    ((∀ e ∈ (dijkstraInit exampleController).unvisited_frontier,
        e.1 ∉ (dijkstraInit exampleController).finalized_nodes) ∧
      (dijkstraInit exampleController).finalized_nodes.Nodup ∧
      ((dijkstraInit exampleController).unvisited_frontier.map (fun e => e.1)).Nodup ∧
      (∀ e, minFrontierEntry (dijkstraInit exampleController).unvisited_frontier =
          some e →
        (dijkstraInit exampleController).finalized_nodes ⊆
          (finalizeEntry (dijkstraInit exampleController) e).finalized_nodes ∧
        (dijkstraInit exampleController).finalized_nodes ⊆
          (relaxState exampleController
            (finalizeEntry (dijkstraInit exampleController) e) e).finalized_nodes ∧
        (finalizeEntry (dijkstraInit exampleController) e).visited_trace =
          (dijkstraInit exampleController).visited_trace ++ [e] ∧
        (relaxState exampleController
            (finalizeEntry (dijkstraInit exampleController) e) e).visited_trace =
          (dijkstraInit exampleController).visited_trace ++ [e] ∧
        e.1 ∉ (dijkstraInit exampleController).visited_trace.map (fun x => x.1) ∧
        e.1 ∈ (finalizeEntry (dijkstraInit exampleController) e).finalized_nodes)) :=
  ⟨DijkstraReach.init,
    dijkstra_step_invariants exampleController (dijkstraInit exampleController)
      DijkstraReach.init⟩

end Aoc
